import Mathlib

/-!
Verification development for `src/seller.py` (Ozon stock/price synchroniser).

The file shallowly embeds the data-transformation core of the program:
`price_conversion`, `divide`, `create_stocks`, `create_prices` and the
paging loop of `get_offer_ids`.  Python machine behaviour that the code
relies on is embedded explicitly:

* `pyInt` models Python `int(str)` (whitespace stripping, an optional
  sign, digit groups separated by single underscores; failure = `none`);
* `pySlice` models `lst[i:j]` slice clamping;
* `pyRangeList` models `range(start, stop, step)` including the
  `ValueError` on `step = 0` (= `none`) and the empty result for a
  negative step with `stop ≥ start`;
* `pySplitDot` models `str.split(".")`.

Mutation of the `offer_ids` list (Python `list.remove` inside
`create_stocks`) is embedded by state passing: each function returns the
list it leaves behind, so `create_stocks` and `create_prices` both return
a pair (result, offer_ids after the call).
-/

namespace Seller

/-! ### Python primitives -/

/-- Whitespace characters stripped by Python `int()` before parsing. -/
def isPyWs (c : Char) : Bool :=
  c = ' ' ∨ c = '\t' ∨ c = '\n' ∨ c = '\r' ∨ c = '\x0b' ∨ c = '\x0c'

/-- Strip leading and trailing whitespace, as Python `int()` does. -/
def pyStrip (cs : List Char) : List Char :=
  ((cs.dropWhile isPyWs).reverse.dropWhile isPyWs).reverse

/-- Digit-sequence scanner of Python `int()`: after a first digit has been
consumed into `acc`, accepts further digits, with single underscores allowed
between digits only. -/
def pyDigitsGo (acc : Nat) : List Char → Option Nat
  | [] => some acc
  | [c] => if c.isDigit then some (10 * acc + (c.toNat - 48)) else none
  | c :: d :: cs =>
      if c.isDigit then pyDigitsGo (10 * acc + (c.toNat - 48)) (d :: cs)
      else if c = '_' ∧ d.isDigit then pyDigitsGo (10 * acc + (d.toNat - 48)) cs
      else none

/-- Unsigned digit part of Python `int()`: a nonempty digit sequence, with
single underscores allowed between digits. -/
def pyDigits : List Char → Option Nat
  | [] => none
  | c :: cs => if c.isDigit then pyDigitsGo (c.toNat - 48) cs else none

/-- Model of Python `int(s)` for a string argument: strip whitespace, read an
optional sign, then a digit sequence; `none` models the `ValueError` raised on
any other input. -/
def pyInt (s : String) : Option Int :=
  match pyStrip s.data with
  | [] => none
  | c :: cs =>
      if c = '+' then (pyDigits cs).map (fun n => (n : Int))
      else if c = '-' then (pyDigits cs).map (fun n => -(n : Int))
      else (pyDigits (c :: cs)).map (fun n => (n : Int))

/-- Index clamping of a Python slice endpoint: a negative index counts from the
end, and the result is clamped into `[0, len]`. -/
def pyIdx (len : Nat) (i : Int) : Nat :=
  let j := if i < 0 then i + len else i
  if j < 0 then 0 else min j.toNat len

/-- Model of the Python slice `lst[i : j]` (step 1). -/
def pySlice {α : Type} (lst : List α) (i j : Int) : List α :=
  let a := pyIdx lst.length i
  let b := pyIdx lst.length j
  (lst.drop a).take (b - a)

/-- Ceiling division on naturals, used to express the length of a Python
`range`. -/
def ceilDiv (a b : Nat) : Nat := (a + b - 1) / b

/-- Model of Python `range(start, stop, step)` as a list: `none` models the
`ValueError` raised on `step = 0`; otherwise the arithmetic progression, which
is empty whenever the step points away from `stop`. -/
def pyRangeList (start stop step : Int) : Option (List Int) :=
  if step = 0 then none
  else if 0 < step then
    some ((List.range (ceilDiv (stop - start).toNat step.toNat)).map
      (fun k : Nat => start + (k : Int) * step))
  else
    some ((List.range (ceilDiv (start - stop).toNat (-step).toNat)).map
      (fun k : Nat => start + (k : Int) * step))

/-- Model of Python `str.split(".")` on the character list: splits at every
occurrence of the dot, keeping empty parts, so the result is never empty. -/
def pySplitDot : List Char → List (List Char)
  | [] => [[]]
  | c :: cs =>
      if c = '.' then [] :: pySplitDot cs
      else
        match pySplitDot cs with
        | [] => [[c]]
        | p :: ps => (c :: p) :: ps

/-! ### Data model -/

/-- One row of the downloaded spreadsheet (`watch_remnants` element), with the
three fields the core reads.  The source always converts the code with
`str(...)` and the data model declares `quantity` and `price` to be strings,
so all three fields are embedded as strings (Python `str` of a string is the
identity). -/
structure Watch where
  code : String
  quantity : String
  price : String
deriving Repr, DecidableEq

/-- One stock-update payload element, a dict of offer_id and stock in the
source.  Python integers are unbounded and may be negative, so `stock` is an
`Int`. -/
structure StockEntry where
  offer_id : String
  stock : Int
deriving Repr, DecidableEq

/-- One price-update payload element, with the five fields built in
`create_prices` (source lines 258-264). -/
structure PriceEntry where
  auto_action_enabled : String
  currency_code : String
  offer_id : String
  old_price : String
  price : String
deriving Repr, DecidableEq

/-! ### price_conversion (source lines 273-294) -/

/-- Embedding of `price_conversion`: `re.sub("[^0-9]", "", price.split(".")[0])`.
The first element of the split is the part before the first dot, and the
regular expression keeps exactly the ASCII decimal digits. -/
def price_conversion (price : String) : String :=
  String.mk (((pySplitDot price.data).headD []).filter Char.isDigit)

/-! ### create_stocks (source lines 194-231) -/

/-- Stock value computed from the quantity string (source lines 219-225):
the more-than-ten sentinel maps to 100, the literal-one sentinel maps to 0,
and any other quantity goes through Python `int()`. -/
def quantityToStock (q : String) : Option Int :=
  if q = ">10" then some 100
  else if q = "1" then some 0
  else pyInt q

/-- First loop of `create_stocks` (source lines 217-227): walk the inventory;
a record whose code is in `offer_ids` emits an entry and removes the first
occurrence of its code (`list.remove`).  Returns the emitted entries together
with the `offer_ids` list left behind; `none` models the `ValueError` of
`int()` on an unparseable quantity. -/
def stocksLoop : List Watch → List String → Option (List StockEntry × List String)
  | [], offer_ids => some ([], offer_ids)
  | w :: ws, offer_ids =>
      if w.code ∈ offer_ids then
        (quantityToStock w.quantity).bind fun st =>
          (stocksLoop ws (offer_ids.erase w.code)).map fun pr =>
            (StockEntry.mk w.code st :: pr.fst, pr.snd)
      else stocksLoop ws offer_ids

/-- Embedding of `create_stocks` (source lines 194-231): the matching loop,
then one zero-stock entry per identifier still in `offer_ids`.  The second
component is the `offer_ids` list as the caller sees it after the call. -/
def create_stocks (watch_remnants : List Watch) (offer_ids : List String) :
    Option (List StockEntry × List String) :=
  (stocksLoop watch_remnants offer_ids).map fun pr =>
    (pr.fst ++ pr.snd.map (fun i => StockEntry.mk i 0), pr.snd)

/-! ### create_prices (source lines 234-266) -/

/-- Price-update payload built for one matched record (source lines 258-264). -/
def mkPriceEntry (w : Watch) : PriceEntry :=
  { auto_action_enabled := "UNKNOWN"
    currency_code := "RUB"
    offer_id := w.code
    old_price := "0"
    price := price_conversion w.price }

/-- Embedding of `create_prices` (source lines 234-266): emit one entry per
inventory record whose code is in `offer_ids`.  The source contains no
statement that modifies `offer_ids`, so the state-passed list is returned
unchanged through every branch. -/
def create_prices : List Watch → List String → List PriceEntry × List String
  | [], offer_ids => ([], offer_ids)
  | w :: ws, offer_ids =>
      if w.code ∈ offer_ids then
        let rest := create_prices ws offer_ids
        (mkPriceEntry w :: rest.fst, rest.snd)
      else create_prices ws offer_ids

/-! ### divide (source lines 297-320) -/

/-- Embedding of `divide`: `for i in range(0, len(lst), n): yield lst[i:i+n]`,
with the generator fully evaluated (every call site wraps it in `list(...)`).
`none` models the `ValueError` of `range` on `n = 0`. -/
def divide {α : Type} (lst : List α) (n : Int) : Option (List (List α)) :=
  (pyRangeList 0 lst.length n).map
    (fun idxs => idxs.map (fun i => pySlice lst i (i + n)))

/-! ### get_offer_ids (source lines 54-87) -/

/-- One product item of a catalog page; the loop only ever reads its
`offer_id` field. -/
structure Product where
  offer_id : String
deriving Repr, DecidableEq

/-- One response of `get_product_list`: the page items, the catalog's reported
total, and the cursor for the next request. -/
structure Page where
  items : List Product
  total : Nat
  last_id : String
deriving Repr, DecidableEq

/-- Paging loop of `get_offer_ids` (source lines 77-83): extend the
accumulated product list with the current page and stop exactly when the
page's reported total equals the accumulated length.  The `pages` list is the
stream of successive `get_product_list` responses; `none` means the loop did
not terminate within the provided responses. -/
def fetchLoop : List Page → List Product → Option (List Product)
  | [], _ => none
  | p :: rest, acc =>
      if p.total = (acc ++ p.items).length then some (acc ++ p.items)
      else fetchLoop rest (acc ++ p.items)

/-- Embedding of `get_offer_ids` (source lines 54-87): run the paging loop
from an empty accumulator, then project every product to its `offer_id`. -/
def get_offer_ids (pages : List Page) : Option (List String) :=
  (fetchLoop pages []).map (fun ps => ps.map Product.offer_id)

/-- Concatenated items of the first `t` pages (the accumulated product list
after `t` iterations of the paging loop). -/
def cumItems (pages : List Page) (t : Nat) : List Product :=
  ((pages.take t).map Page.items).flatten

/-- Example price string of the spec: the characters 5, apostrophe (code 39),
990.00, a space, and the Cyrillic currency marker followed by a dot. -/
def sampleRusPrice : String :=
  String.mk ['5', Char.ofNat 39, '9', '9', '0', '.', '0', '0', ' ', 'р', 'у', 'б', '.']

/-- Quantity strings the spec's data model allows: one of the two sentinels or
a nonempty string of ASCII decimal digits. -/
@[reducible] def goodQuantity (q : String) : Prop :=
  q = ">10" ∨ q = "1" ∨ (q.data ≠ [] ∧ ∀ c ∈ q.data, c.isDigit)

/-! ### Lemmas about the Python split model -/

theorem pySplitDot_ne_nil (cs : List Char) : pySplitDot cs ≠ [] := by
  cases cs with
  | nil => simp [pySplitDot]
  | cons c cs =>
    by_cases hc : c = '.'
    · simp [pySplitDot, hc]
    · cases h : pySplitDot cs with
      | nil => simp [pySplitDot, hc, h]
      | cons p ps => simp [pySplitDot, hc, h]

theorem pySplitDot_headD (cs : List Char) :
    (pySplitDot cs).headD [] = cs.takeWhile (fun c => c ≠ '.') := by
  induction cs with
  | nil => rfl
  | cons c cs ih =>
    by_cases hc : c = '.'
    · subst hc
      simp [pySplitDot, List.takeWhile_cons]
    · cases h : pySplitDot cs with
      | nil => exact absurd h (pySplitDot_ne_nil cs)
      | cons p ps =>
        rw [h, List.headD_cons] at ih
        simp only [pySplitDot, if_neg hc, h, List.headD_cons, List.takeWhile_cons]
        simp [hc, ih]

/-! ### Lemmas about create_prices -/

theorem create_prices_fst_eq_nil {I : List Watch} {K : List String}
    (h : ∀ w ∈ I, w.code ∉ K) : (create_prices I K).fst = [] := by
  induction I with
  | nil => rfl
  | cons w ws ih =>
    have hw : w.code ∉ K := h w (List.mem_cons_self w ws)
    simp only [create_prices, if_neg hw]
    exact ih fun w' hw' => h w' (List.mem_cons_of_mem w hw')

/-! ### Lemmas about the Python int model on digit strings -/

theorem isPyWs_of_isDigit {c : Char} (h : c.isDigit = true) : isPyWs c = false := by
  cases hw : isPyWs c with
  | false => rfl
  | true =>
    exfalso
    have hmem : c = ' ' ∨ c = '\t' ∨ c = '\n' ∨ c = '\r' ∨ c = '\x0b' ∨ c = '\x0c' := by
      simpa [isPyWs] using hw
    rcases hmem with rfl | rfl | rfl | rfl | rfl | rfl <;> exact absurd h (by decide)

theorem dropWhile_of_all_false {p : Char → Bool} {l : List Char}
    (h : ∀ c ∈ l, p c = false) : l.dropWhile p = l := by
  cases l with
  | nil => rfl
  | cons c cs => simp [List.dropWhile_cons, h c (List.mem_cons_self c cs)]

theorem pyStrip_of_digits {cs : List Char} (h : ∀ c ∈ cs, c.isDigit = true) :
    pyStrip cs = cs := by
  unfold pyStrip
  rw [dropWhile_of_all_false fun c hc => isPyWs_of_isDigit (h c hc)]
  rw [dropWhile_of_all_false fun c hc =>
    isPyWs_of_isDigit (h c (List.mem_reverse.mp hc))]
  exact List.reverse_reverse cs

theorem pyDigitsGo_of_digits (cs : List Char) :
    ∀ acc : Nat, (∀ c ∈ cs, c.isDigit = true) → ∃ n, pyDigitsGo acc cs = some n := by
  induction cs with
  | nil => exact fun acc _ => ⟨acc, rfl⟩
  | cons c rest ih =>
    intro acc h
    have hc : c.isDigit = true := h c (List.mem_cons_self c rest)
    cases rest with
    | nil => exact ⟨10 * acc + (c.toNat - 48), by simp [pyDigitsGo, hc]⟩
    | cons d cs' =>
      have := ih (10 * acc + (c.toNat - 48))
        fun x hx => h x (List.mem_cons_of_mem c hx)
      simpa [pyDigitsGo, hc] using this

theorem pyInt_of_digits (q : String) (hne : q.data ≠ [])
    (hd : ∀ c ∈ q.data, c.isDigit = true) :
    ∃ n : Nat, pyInt q = some (n : Int) := by
  unfold pyInt
  rw [pyStrip_of_digits hd]
  cases hq : q.data with
  | nil => exact absurd hq hne
  | cons c cs =>
    have hc : c.isDigit = true := by
      have := hd c; rw [hq] at this; exact this (List.mem_cons_self c cs)
    have hplus : ¬ c = '+' := by intro h; subst h; exact absurd hc (by decide)
    have hminus : ¬ c = '-' := by intro h; subst h; exact absurd hc (by decide)
    have hcs : ∀ x ∈ cs, x.isDigit = true := by
      intro x hx
      have := hd x; rw [hq] at this; exact this (List.mem_cons_of_mem c hx)
    obtain ⟨n, hn⟩ := pyDigitsGo_of_digits cs (c.toNat - 48) hcs
    exact ⟨n, by simp [pyDigits, hc, hn, hplus, hminus]⟩

theorem quantityToStock_nonneg {q : String} (hq : goodQuantity q) :
    ∀ st, quantityToStock q = some st → 0 ≤ st := by
  intro st h
  unfold quantityToStock at h
  by_cases h1 : q = ">10"
  · rw [if_pos h1] at h
    injection h with h
    omega
  · rw [if_neg h1] at h
    by_cases h2 : q = "1"
    · rw [if_pos h2] at h
      injection h with h
      omega
    · rw [if_neg h2] at h
      rcases hq with rfl | rfl | ⟨hne, hdig⟩
      · exact absurd rfl h1
      · exact absurd rfl h2
      · obtain ⟨n, hn⟩ := pyInt_of_digits q hne hdig
        rw [hn] at h
        injection h with h
        omega

/-! ### Lemmas about the stock-reconciliation loop -/

theorem stocksLoop_perm {I : List Watch} :
    ∀ {K : List String} {S : List StockEntry} {K' : List String},
      stocksLoop I K = some (S, K') →
      (S.map StockEntry.offer_id ++ K').Perm K := by
  induction I with
  | nil =>
    intro K S K' h
    simp only [stocksLoop, Option.some.injEq, Prod.mk.injEq] at h
    obtain ⟨rfl, rfl⟩ := h
    simp
  | cons w ws ih =>
    intro K S K' h
    by_cases hm : w.code ∈ K
    · simp only [stocksLoop, if_pos hm, Option.bind_eq_some, Option.map_eq_some'] at h
      obtain ⟨st, hq, ⟨S₀, R⟩, hr, heq⟩ := h
      rw [Prod.mk.injEq] at heq
      obtain ⟨rfl, rfl⟩ := heq
      have hperm := ih hr
      simpa using (hperm.cons w.code).trans (List.perm_cons_erase hm).symm
    · simp only [stocksLoop, if_neg hm] at h
      exact ih h

theorem stocksLoop_sublist {I : List Watch} :
    ∀ {K : List String} {S : List StockEntry} {K' : List String},
      stocksLoop I K = some (S, K') → K'.Sublist K := by
  induction I with
  | nil =>
    intro K S K' h
    simp only [stocksLoop, Option.some.injEq, Prod.mk.injEq] at h
    obtain ⟨rfl, rfl⟩ := h
    exact List.Sublist.refl K
  | cons w ws ih =>
    intro K S K' h
    by_cases hm : w.code ∈ K
    · simp only [stocksLoop, if_pos hm, Option.bind_eq_some, Option.map_eq_some'] at h
      obtain ⟨st, hq, ⟨S₀, R⟩, hr, heq⟩ := h
      rw [Prod.mk.injEq] at heq
      obtain ⟨rfl, rfl⟩ := heq
      exact (ih hr).trans (List.erase_sublist w.code K)
    · simp only [stocksLoop, if_neg hm] at h
      exact ih h

theorem stocksLoop_codes {I : List Watch} :
    ∀ {K : List String} {S : List StockEntry} {K' : List String},
      stocksLoop I K = some (S, K') →
      ∃ I' : List Watch, I'.Sublist I ∧ S.map StockEntry.offer_id = I'.map Watch.code := by
  induction I with
  | nil =>
    intro K S K' h
    simp only [stocksLoop, Option.some.injEq, Prod.mk.injEq] at h
    obtain ⟨rfl, rfl⟩ := h
    exact ⟨[], List.nil_sublist [], rfl⟩
  | cons w ws ih =>
    intro K S K' h
    by_cases hm : w.code ∈ K
    · simp only [stocksLoop, if_pos hm, Option.bind_eq_some, Option.map_eq_some'] at h
      obtain ⟨st, hq, ⟨S₀, R⟩, hr, heq⟩ := h
      rw [Prod.mk.injEq] at heq
      obtain ⟨rfl, rfl⟩ := heq
      obtain ⟨I', hsub, hmap⟩ := ih hr
      exact ⟨w :: I', hsub.cons₂ w, by simp [hmap]⟩
    · simp only [stocksLoop, if_neg hm] at h
      obtain ⟨I', hsub, hmap⟩ := ih h
      exact ⟨I', hsub.cons w, hmap⟩

theorem stocksLoop_not_mem {I : List Watch} :
    ∀ {K : List String} {S : List StockEntry} {K' : List String},
      K.Nodup → stocksLoop I K = some (S, K') →
      ∀ w ∈ I, w.code ∉ K' := by
  induction I with
  | nil => exact fun _ _ w hw => absurd hw (List.not_mem_nil w)
  | cons w ws ih =>
    intro K S K' hK h w' hw'
    by_cases hm : w.code ∈ K
    · simp only [stocksLoop, if_pos hm, Option.bind_eq_some, Option.map_eq_some'] at h
      obtain ⟨st, hq, ⟨S₀, R⟩, hr, heq⟩ := h
      rw [Prod.mk.injEq] at heq
      obtain ⟨rfl, rfl⟩ := heq
      rcases List.mem_cons.mp hw' with rfl | hmem
      · intro hcontra
        have h2 : w'.code ∈ K.erase w'.code := (stocksLoop_sublist hr).subset hcontra
        exact (hK.mem_erase_iff.mp h2).1 rfl
      · exact ih (hK.erase w.code) hr w' hmem
    · simp only [stocksLoop, if_neg hm] at h
      rcases List.mem_cons.mp hw' with rfl | hmem
      · exact fun hc => hm ((stocksLoop_sublist h).subset hc)
      · exact ih hK h w' hmem

theorem stocksLoop_nonneg {I : List Watch} :
    ∀ {K : List String} {S : List StockEntry} {K' : List String},
      (∀ w ∈ I, goodQuantity w.quantity) →
      stocksLoop I K = some (S, K') →
      ∀ e ∈ S, 0 ≤ e.stock := by
  induction I with
  | nil =>
    intro K S K' _ h e he
    simp only [stocksLoop, Option.some.injEq, Prod.mk.injEq] at h
    obtain ⟨rfl, rfl⟩ := h
    exact absurd he (List.not_mem_nil e)
  | cons w ws ih =>
    intro K S K' hgood h e he
    by_cases hm : w.code ∈ K
    · simp only [stocksLoop, if_pos hm, Option.bind_eq_some, Option.map_eq_some'] at h
      obtain ⟨st, hq, ⟨S₀, R⟩, hr, heq⟩ := h
      rw [Prod.mk.injEq] at heq
      obtain ⟨rfl, rfl⟩ := heq
      rcases List.mem_cons.mp he with rfl | hmem
      · exact quantityToStock_nonneg (hgood w (List.mem_cons_self w ws)) st hq
      · exact ih (fun x hx => hgood x (List.mem_cons_of_mem w hx)) hr e hmem
    · simp only [stocksLoop, if_neg hm] at h
      exact ih (fun x hx => hgood x (List.mem_cons_of_mem w hx)) h e he

/-! ### Lemmas about the batcher -/

theorem ceilDiv_zero_left (b : Nat) : ceilDiv 0 b = 0 := by
  unfold ceilDiv
  rcases Nat.eq_zero_or_pos b with hb | hb
  · subst hb; rfl
  · exact Nat.div_eq_of_lt (by omega)

theorem ceilDiv_eq_zero_iff {L m : Nat} (hm : 0 < m) : ceilDiv L m = 0 ↔ L = 0 := by
  constructor
  · intro h
    by_contra hL
    have h1 : 1 * m ≤ L + m - 1 := by omega
    have := Nat.le_div_iff_mul_le hm |>.mpr (by omega : 1 * m ≤ L + m - 1)
    unfold ceilDiv at h
    omega
  · intro h; subst h; exact ceilDiv_zero_left m

theorem ceilDiv_succ_step {L m : Nat} (hm : 0 < m) (hL : 0 < L) :
    ceilDiv L m = ceilDiv (L - m) m + 1 := by
  unfold ceilDiv
  rcases le_or_lt m L with hle | hlt
  · have h1 : L + m - 1 = (L - m + m - 1) + m := by omega
    rw [h1, Nat.add_div_right _ hm]
  · have h1 : L - m = 0 := by omega
    rw [h1]
    have h2 : (0 + m - 1) / m = 0 := by
      rcases Nat.eq_zero_or_pos m with hb | hb
      · omega
      · exact Nat.div_eq_of_lt (by omega)
    rw [h2]
    exact Nat.div_eq_of_lt_le (by omega) (by omega)

theorem pySlice_natCast {α : Type} (lst : List α) (i j : Nat) :
    pySlice lst (i : Int) (j : Int) = (lst.drop i).take (j - i) := by
  have hidx : ∀ k : Nat, pyIdx lst.length (k : Int) = min k lst.length := by
    intro k
    unfold pyIdx
    rw [if_neg (by omega : ¬ (k : Int) < 0)]
    rw [if_neg (by omega : ¬ (k : Int) < 0)]
    rw [Int.toNat_natCast]
  unfold pySlice
  simp only [hidx]
  rcases le_or_lt lst.length i with hi | hi
  · have ha : min i lst.length = lst.length := by omega
    rw [ha, List.drop_length, List.drop_eq_nil_of_le hi]
    simp
  · have ha : min i lst.length = i := by omega
    rw [ha]
    rcases le_or_lt j lst.length with hj | hj
    · have hb : min j lst.length = j := by omega
      rw [hb]
    · have hb : min j lst.length = lst.length := by omega
      rw [hb]
      rw [List.take_of_length_le (le_of_eq (List.length_drop i lst))]
      rw [List.take_of_length_le (by rw [List.length_drop]; omega)]

theorem divide_pos {α : Type} (lst : List α) (n : Int) (hn : 0 < n) :
    divide lst n = some ((List.range (ceilDiv lst.length n.toNat)).map
      (fun k => (lst.drop (k * n.toNat)).take n.toNat)) := by
  unfold divide pyRangeList
  rw [if_neg (by omega : ¬ n = 0), if_pos hn]
  simp only [Option.map_some']
  congr 1
  rw [List.map_map]
  have hcount : ((lst.length : Int) - 0).toNat = lst.length := by omega
  rw [hcount]
  apply List.map_congr_left
  intro k _
  simp only [Function.comp_apply]
  have hnn : (n.toNat : Int) = n := Int.toNat_of_nonneg hn.le
  have h1 : (0 : Int) + (k : Int) * n = ((k * n.toNat : Nat) : Int) := by
    push_cast
    rw [hnn]
    ring
  have h2 : (0 : Int) + (k : Int) * n + n = ((k * n.toNat + n.toNat : Nat) : Int) := by
    push_cast
    rw [hnn]
    ring
  rw [h2, h1, pySlice_natCast]
  congr 1
  omega

theorem chunk_spec {α : Type} (m : Nat) (hm : 0 < m) :
    ∀ (c : Nat) (lst : List α), ceilDiv lst.length m = c →
      ((List.range c).map (fun k => (lst.drop (k * m)).take m)).flatten = lst ∧
      (∀ ch ∈ ((List.range c).map (fun k => (lst.drop (k * m)).take m)).dropLast,
        ch.length = m) ∧
      (lst ≠ [] → ∃ lastc,
        ((List.range c).map (fun k => (lst.drop (k * m)).take m)).getLast? = some lastc ∧
        1 ≤ lastc.length ∧ lastc.length ≤ m) := by
  intro c
  induction c with
  | zero =>
    intro lst hc
    have hL : lst.length = 0 := (ceilDiv_eq_zero_iff hm).mp hc
    have hnil : lst = [] := List.length_eq_zero.mp hL
    subst hnil
    refine ⟨rfl, ?_, ?_⟩
    · intro ch hch; exact absurd hch (List.not_mem_nil ch)
    · intro h; exact absurd rfl h
  | succ c ih =>
    intro lst hc
    have hL : 0 < lst.length := by
      by_contra hcon
      have h0 : lst.length = 0 := by omega
      rw [h0] at hc
      rw [ceilDiv_zero_left] at hc
      omega
    have hstep := ceilDiv_succ_step hm hL
    have htail : ceilDiv (lst.drop m).length m = c := by
      rw [List.length_drop]
      omega
    obtain ⟨ihj, ihd, ihl⟩ := ih (lst.drop m) htail
    have hexp : (List.range (c + 1)).map (fun k => (lst.drop (k * m)).take m)
        = lst.take m ::
          (List.range c).map (fun k => ((lst.drop m).drop (k * m)).take m) := by
      rw [List.range_succ_eq_map, List.map_cons, List.map_map]
      congr 1
      · rw [Nat.zero_mul, List.drop_zero]
      · apply List.map_congr_left
        intro k _
        simp only [Function.comp_apply]
        rw [List.drop_drop, Nat.succ_mul, Nat.add_comm (k * m) m]
    rw [hexp]
    refine ⟨?_, ?_, ?_⟩
    · rw [List.flatten_cons, ihj, List.take_append_drop]
    · cases hcs : (List.range c).map (fun k => ((lst.drop m).drop (k * m)).take m) with
      | nil => intro ch hch; simp at hch
      | cons ch2 chs =>
        intro ch hch
        have hc1 : 0 < c := by
          by_contra hcon
          have : c = 0 := by omega
          subst this
          simp at hcs
        have hmL : m < lst.length := by
          have : (lst.drop m).length ≠ 0 := by
            intro h0
            rw [h0, ceilDiv_zero_left] at htail
            omega
          rw [List.length_drop] at this
          omega
        have hdl : (lst.take m :: ch2 :: chs).dropLast
            = lst.take m :: (ch2 :: chs).dropLast := rfl
        rw [hdl] at hch
        rcases List.mem_cons.mp hch with rfl | hmem
        · rw [List.length_take]
          omega
        · rw [hcs] at ihd
          exact ihd ch hmem
    · intro _
      cases hcs : (List.range c).map (fun k => ((lst.drop m).drop (k * m)).take m) with
      | nil =>
        have hc0 : c = 0 := by
          by_contra hcon
          have h1 : 0 < c := by omega
          have : (List.range c).length = c := List.length_range c
          have hlen : ((List.range c).map
              (fun k => ((lst.drop m).drop (k * m)).take m)).length = c := by
            rw [List.length_map, List.length_range]
          rw [hcs] at hlen
          simp at hlen
          omega
        subst hc0
        have hLm : lst.length ≤ m := by
          have := (ceilDiv_eq_zero_iff hm).mp htail
          rw [List.length_drop] at this
          omega
        refine ⟨lst.take m, rfl, ?_, ?_⟩
        · rw [List.length_take]; omega
        · rw [List.length_take]; omega
      | cons ch2 chs =>
        have htne : lst.drop m ≠ [] := by
          intro h0
          have h1 : c = 0 := by
            rw [h0] at htail
            simp only [List.length_nil] at htail
            rw [ceilDiv_zero_left] at htail
            omega
          rw [h1] at hcs
          simp at hcs
        obtain ⟨lastc, hl, h1, h2⟩ := ihl htne
        rw [hcs] at hl
        refine ⟨lastc, ?_, h1, h2⟩
        rw [List.getLast?_cons_cons]
        exact hl

/-! ### Lemmas about the paging loop -/

theorem cumItems_zero (pages : List Page) : cumItems pages 0 = [] := rfl

theorem cumItems_cons_succ (p : Page) (rest : List Page) (t : Nat) :
    cumItems (p :: rest) (t + 1) = p.items ++ cumItems rest t := by
  simp [cumItems, List.take_succ_cons]

theorem fetchLoop_some_iff (pages : List Page) :
    ∀ (acc res : List Product),
      fetchLoop pages acc = some res ↔
      ∃ k, k < pages.length ∧ res = acc ++ cumItems pages (k + 1) ∧
        (∀ p, pages.get? k = some p →
          p.total = (acc ++ cumItems pages (k + 1)).length) ∧
        (∀ j, j < k → ∀ p, pages.get? j = some p →
          p.total ≠ (acc ++ cumItems pages (j + 1)).length) := by
  induction pages with
  | nil =>
    intro acc res
    constructor
    · intro h; exact absurd h (by simp [fetchLoop])
    · rintro ⟨k, hk, -⟩; exact absurd hk (Nat.not_lt_zero k)
  | cons p rest ih =>
    intro acc res
    simp only [fetchLoop]
    by_cases hstop : p.total = (acc ++ p.items).length
    · rw [if_pos hstop]
      constructor
      · intro h
        injection h with h
        refine ⟨0, Nat.succ_pos _, ?_, ?_, ?_⟩
        · rw [← h, cumItems_cons_succ, cumItems_zero, List.append_nil]
        · intro q hq
          rw [List.get?_cons_zero] at hq
          injection hq with hq
          subst hq
          rw [cumItems_cons_succ, cumItems_zero, List.append_nil]
          exact hstop
        · intro j hj
          exact absurd hj (Nat.not_lt_zero j)
      · rintro ⟨k, hk, hres, hcond, hmin⟩
        cases k with
        | zero =>
          rw [hres, cumItems_cons_succ, cumItems_zero, List.append_nil]
        | succ k' =>
          exfalso
          refine hmin 0 (Nat.succ_pos k') p rfl ?_
          rw [cumItems_cons_succ, cumItems_zero, List.append_nil]
          exact hstop
    · rw [if_neg hstop]
      rw [ih (acc ++ p.items) res]
      constructor
      · rintro ⟨k, hk, hres, hcond, hmin⟩
        refine ⟨k + 1, Nat.succ_lt_succ hk, ?_, ?_, ?_⟩
        · rw [hres, cumItems_cons_succ, List.append_assoc]
        · intro q hq
          rw [List.get?_cons_succ] at hq
          rw [cumItems_cons_succ, ← List.append_assoc]
          exact hcond q hq
        · intro j hj q hq
          cases j with
          | zero =>
            rw [List.get?_cons_zero] at hq
            injection hq with hq
            subst hq
            rw [cumItems_cons_succ, cumItems_zero, List.append_nil]
            exact hstop
          | succ j' =>
            rw [List.get?_cons_succ] at hq
            rw [cumItems_cons_succ, ← List.append_assoc]
            exact hmin j' (by omega) q hq
      · rintro ⟨k, hk, hres, hcond, hmin⟩
        cases k with
        | zero =>
          exfalso
          apply hstop
          have := hcond p (List.get?_cons_zero)
          rw [cumItems_cons_succ, cumItems_zero, List.append_nil] at this
          exact this
        | succ k' =>
          refine ⟨k', by simpa using hk, ?_, ?_, ?_⟩
          · rw [hres, cumItems_cons_succ, List.append_assoc]
          · intro q hq
            have := hcond q (by rw [List.get?_cons_succ]; exact hq)
            rw [cumItems_cons_succ, ← List.append_assoc] at this
            exact this
          · intro j hj q hq
            have := hmin (j + 1) (Nat.succ_lt_succ hj) q
              (by rw [List.get?_cons_succ]; exact hq)
            rw [cumItems_cons_succ, ← List.append_assoc] at this
            exact this

/-! ### Claims -/

/-- C1: in the main pipeline, once `create_stocks` has consumed a
duplicate-free offer-identifier list (removing every identifier matched by an
inventory record), the subsequent `create_prices` call on the same leftover
list returns the empty list, so main dispatches no price update. -/
theorem c1_prices_empty_after_stocks (I : List Watch) (K : List String)
    (hK : K.Nodup) (S : List StockEntry) (K' : List String)
    (h : create_stocks I K = some (S, K')) :
    (create_prices I K').fst = [] := by
  obtain ⟨pr, hloop, heq⟩ := Option.map_eq_some'.mp h
  obtain ⟨S₀, R⟩ := pr
  rw [Prod.mk.injEq] at heq
  obtain ⟨hS, hK'⟩ := heq
  subst hK'
  exact create_prices_fst_eq_nil (stocksLoop_not_mem hK hloop)

/-- Witness for C1 at a concrete inventory and catalog. -/
theorem c1_witness :
    (["A", "B"] : List String).Nodup ∧
    (create_prices [(⟨"A", "5", "100"⟩ : Watch)] ["B"]).fst = [] :=
  ⟨by decide,
    c1_prices_empty_after_stocks [⟨"A", "5", "100"⟩] ["A", "B"] (by decide)
      [⟨"A", 5⟩, ⟨"B", 0⟩] ["B"] (by decide)⟩

/-- C2: on a duplicate-free offer list K, create_stocks returns exactly one
entry per identifier of K (no duplicates, no omissions, length preserved);
the output is the inventory-matched entries first, drawn from the inventory
in order, followed by zero-stock entries for the unmatched identifiers in
their original relative order in K. -/
theorem c2_create_stocks_complete (I : List Watch) (K : List String)
    (hK : K.Nodup) (S : List StockEntry) (K' : List String)
    (h : create_stocks I K = some (S, K')) :
    S.length = K.length ∧
    (S.map StockEntry.offer_id).Perm K ∧
    (S.map StockEntry.offer_id).Nodup ∧
    K'.Sublist K ∧
    ∃ M, S = M ++ K'.map (fun i => StockEntry.mk i 0) ∧
      ∃ I' : List Watch, I'.Sublist I ∧
        M.map StockEntry.offer_id = I'.map Watch.code := by
  obtain ⟨pr, hloop, heq⟩ := Option.map_eq_some'.mp h
  obtain ⟨S₀, R⟩ := pr
  dsimp only at heq
  rw [Prod.mk.injEq] at heq
  obtain ⟨hS, hK'⟩ := heq
  subst hK'
  subst hS
  have hcomp : (StockEntry.offer_id ∘ fun i => StockEntry.mk i 0) = id := rfl
  have hmap : (S₀ ++ R.map fun i => StockEntry.mk i 0).map StockEntry.offer_id
      = S₀.map StockEntry.offer_id ++ R := by
    rw [List.map_append, List.map_map, hcomp, List.map_id]
  have hperm : ((S₀ ++ R.map fun i => StockEntry.mk i 0).map
      StockEntry.offer_id).Perm K := by
    rw [hmap]
    exact stocksLoop_perm hloop
  refine ⟨?_, hperm, hperm.symm.nodup hK, stocksLoop_sublist hloop,
    S₀, rfl, stocksLoop_codes hloop⟩
  have hlen := hperm.length_eq
  rw [List.length_map] at hlen
  exact hlen

/-- Witness for C2 at a concrete inventory and catalog. -/
theorem c2_witness :
    (["A", "B"] : List String).Nodup ∧
    (([⟨"A", 5⟩, ⟨"B", 0⟩] : List StockEntry).length
        = (["A", "B"] : List String).length ∧
      (([⟨"A", 5⟩, ⟨"B", 0⟩] : List StockEntry).map StockEntry.offer_id).Perm
        ["A", "B"] ∧
      (([⟨"A", 5⟩, ⟨"B", 0⟩] : List StockEntry).map StockEntry.offer_id).Nodup ∧
      (["B"] : List String).Sublist ["A", "B"] ∧
      ∃ M, ([⟨"A", 5⟩, ⟨"B", 0⟩] : List StockEntry)
          = M ++ (["B"] : List String).map (fun i => StockEntry.mk i 0) ∧
        ∃ I' : List Watch, I'.Sublist [⟨"A", "5", "100"⟩] ∧
          M.map StockEntry.offer_id = I'.map Watch.code) :=
  ⟨by decide,
    c2_create_stocks_complete [⟨"A", "5", "100"⟩] ["A", "B"] (by decide)
      [⟨"A", 5⟩, ⟨"B", 0⟩] ["B"] (by decide)⟩

/-- C3: the quantity encoding of create_stocks maps the sentinel for more
than ten to 100, the sentinel one to 0, and any other quantity through
Python int(), used directly on success and failing with an error (none) for a
non-integer string. -/
theorem c3_quantity_encoding :
    quantityToStock (">10") = some 100 ∧
    quantityToStock ("1") = some 0 ∧
    quantityToStock ("7") = some 7 ∧
    (∀ q : String, q ≠ ">10" → q ≠ "1" → quantityToStock q = pyInt q) ∧
    (∀ (code q price : String) (K : List String), code ∈ K →
      create_stocks [⟨code, q, price⟩] K =
        (quantityToStock q).map fun st =>
          (StockEntry.mk code st ::
            (K.erase code).map (fun i => StockEntry.mk i 0), K.erase code)) ∧
    pyInt ("abc") = none := by
  refine ⟨by decide, by decide, by decide, ?_, ?_, by decide⟩
  · intro q h1 h2
    simp [quantityToStock, h1, h2]
  · intro code q price K hm
    cases hq : quantityToStock q with
    | none => simp [create_stocks, stocksLoop, hm, hq]
    | some st => simp [create_stocks, stocksLoop, hm, hq]

/-- Witness for C3 at concrete quantities. -/
theorem c3_witness :
    quantityToStock ("73") = pyInt ("73") ∧
    create_stocks [(⟨"A", "abc", "0"⟩ : Watch)] ["A"] = none := by
  constructor
  · exact c3_quantity_encoding.2.2.2.1 ("73") (by decide) (by decide)
  · have h := c3_quantity_encoding.2.2.2.2.1 ("A") ("abc") ("0") ["A"] (by decide)
    rw [h]
    decide

/-- C4: price_conversion returns exactly the ASCII decimal digits of the part
of the input preceding the first dot, in order, with every other character
removed; on the spec's example string it returns 5990. -/
theorem c4_price_conversion_spec :
    (∀ s : String, price_conversion s =
      String.mk ((s.data.takeWhile (fun c => c ≠ '.')).filter Char.isDigit)) ∧
    price_conversion sampleRusPrice = "5990" := by
  constructor
  · intro s
    unfold price_conversion
    rw [pySplitDot_headD]
  · decide

/-- C5: for every list and positive n, divide yields chunks whose
concatenation is the original list, every chunk except possibly the last has
length n, the last chunk has length between 1 and n, and the empty list
yields zero chunks. -/
theorem c5_divide_partitions {α : Type} (lst : List α) (n : Int) (hn : 0 < n) :
    ∃ cs, divide lst n = some cs ∧
      cs.flatten = lst ∧
      (∀ ch ∈ cs.dropLast, (ch.length : Int) = n) ∧
      (lst ≠ [] → ∃ lastc, cs.getLast? = some lastc ∧
        1 ≤ lastc.length ∧ (lastc.length : Int) ≤ n) ∧
      (lst = [] → cs = []) := by
  have hm : 0 < n.toNat := by omega
  obtain ⟨hj, hd, hl⟩ := chunk_spec n.toNat hm (ceilDiv lst.length n.toNat) lst rfl
  refine ⟨_, divide_pos lst n hn, hj, ?_, ?_, ?_⟩
  · intro ch hch
    rw [hd ch hch]
    omega
  · intro hne
    obtain ⟨lastc, h1, h2, h3⟩ := hl hne
    exact ⟨lastc, h1, h2, by omega⟩
  · intro he
    subst he
    simp [ceilDiv_zero_left]

/-- Witness for C5 at the docstring's example input. -/
theorem c5_witness :
    (0 : Int) < 2 ∧
    ∃ cs, divide ([1, 2, 3, 4, 5] : List Nat) 2 = some cs ∧
      cs.flatten = [1, 2, 3, 4, 5] ∧
      (∀ ch ∈ cs.dropLast, (ch.length : Int) = 2) ∧
      (([1, 2, 3, 4, 5] : List Nat) ≠ [] → ∃ lastc, cs.getLast? = some lastc ∧
        1 ≤ lastc.length ∧ (lastc.length : Int) ≤ 2) ∧
      (([1, 2, 3, 4, 5] : List Nat) = [] → cs = []) :=
  ⟨by decide, c5_divide_partitions [1, 2, 3, 4, 5] 2 (by decide)⟩

/-- Counterexample to C6: on the nonempty list [1] with the negative size -1,
divide does not fail; it silently produces zero chunks. -/
theorem c6_counterexample :
    divide ([1] : List Nat) (-1) = some [] ∧ divide ([1] : List Nat) (-1) ≠ none := by
  constructor
  · decide
  · decide

/-- C6 (amended): for a nonempty list and nonpositive n, divide fails with an
error exactly when n = 0 (the range ValueError); for negative n it raises no
error and silently produces zero chunks. -/
theorem c6_amended_divide_nonpositive {α : Type} (lst : List α) (n : Int)
    (_hne : lst ≠ []) (hn : n ≤ 0) :
    (divide lst n = none ↔ n = 0) ∧ (n < 0 → divide lst n = some []) := by
  by_cases h0 : n = 0
  · subst h0
    refine ⟨⟨fun _ => rfl, fun _ => ?_⟩, fun h => absurd h (by omega)⟩
    simp [divide, pyRangeList]
  · have hdiv : divide lst n = some [] := by
      unfold divide pyRangeList
      rw [if_neg h0, if_neg (by omega : ¬ 0 < n)]
      have hz : ((0 : Int) - (lst.length : Int)).toNat = 0 := by omega
      rw [hz, ceilDiv_zero_left]
      rfl
    rw [hdiv]
    exact ⟨⟨fun hc => Option.noConfusion hc, fun hc => absurd hc h0⟩, fun _ => rfl⟩

/-- Witness for the amended C6 at the concrete input. -/
theorem c6_witness :
    ([1] : List Nat) ≠ [] ∧ (-1 : Int) < 0 ∧
    divide ([1] : List Nat) (-1) = some [] :=
  ⟨by decide, by decide,
    (c6_amended_divide_nonpositive ([1] : List Nat) (-1) (by decide)
      (by decide)).2 (by decide)⟩

/-- C7: create_prices emits an entry only for identifiers present in both the
inventory and the known-offer list — on inventory code A with known offers B
the result is empty — and every entry carries exactly the fixed fields with
the normalized price. -/
theorem c7_create_prices_matched_only (I : List Watch) (K : List String) :
    (∀ e ∈ (create_prices I K).fst,
      ∃ w, w ∈ I ∧ w.code ∈ K ∧ e.offer_id = w.code ∧
        e.price = price_conversion w.price ∧
        e.currency_code = "RUB" ∧ e.auto_action_enabled = "UNKNOWN" ∧
        e.old_price = "0") ∧
    (create_prices [(⟨"A", "1", "1000"⟩ : Watch)] ["B"]).fst = [] := by
  constructor
  · induction I with
    | nil => intro e he; exact absurd he (List.not_mem_nil e)
    | cons w ws ih =>
      intro e he
      by_cases hm : w.code ∈ K
      · simp only [create_prices, if_pos hm] at he
        rcases List.mem_cons.mp he with rfl | hmem
        · exact ⟨w, List.mem_cons_self w ws, hm, rfl, rfl, rfl, rfl, rfl⟩
        · obtain ⟨w', hw', hrest⟩ := ih e hmem
          exact ⟨w', List.mem_cons_of_mem w hw', hrest⟩
      · simp only [create_prices, if_neg hm] at he
        obtain ⟨w', hw', hrest⟩ := ih e he
        exact ⟨w', List.mem_cons_of_mem w hw', hrest⟩
  · decide

/-- Witness for C7: the entry emitted for a matched record satisfies the
field contract. -/
theorem c7_witness :
    ∃ w, w ∈ ([⟨"A", "1", "1000"⟩] : List Watch) ∧
      w.code ∈ (["A"] : List String) ∧
      (⟨"UNKNOWN", "RUB", "A", "0", "1000"⟩ : PriceEntry).offer_id = w.code ∧
      (⟨"UNKNOWN", "RUB", "A", "0", "1000"⟩ : PriceEntry).price
        = price_conversion w.price ∧
      (⟨"UNKNOWN", "RUB", "A", "0", "1000"⟩ : PriceEntry).currency_code = "RUB" ∧
      (⟨"UNKNOWN", "RUB", "A", "0", "1000"⟩ : PriceEntry).auto_action_enabled
        = "UNKNOWN" ∧
      (⟨"UNKNOWN", "RUB", "A", "0", "1000"⟩ : PriceEntry).old_price = "0" :=
  (c7_create_prices_matched_only [⟨"A", "1", "1000"⟩] ["A"]).1
    ⟨"UNKNOWN", "RUB", "A", "0", "1000"⟩ (by decide)

/-- C8: create_prices has no side effect on its known-offers argument: the
state-passed list comes back unchanged, elementwise and in order. -/
theorem c8_create_prices_no_mutation (I : List Watch) (K : List String) :
    (create_prices I K).snd = K := by
  induction I with
  | nil => rfl
  | cons w ws ih =>
    by_cases hm : w.code ∈ K
    · simp only [create_prices, if_pos hm]
      exact ih
    · simp only [create_prices, if_neg hm]
      exact ih

/-- Counterexample to C9: the quantity string minus-five is neither sentinel,
Python int() parses it, and create_stocks emits a negative stock value. -/
theorem c9_counterexample :
    create_stocks [(⟨"A", "-5", "0"⟩ : Watch)] ["A"]
      = some ([⟨"A", -5⟩], []) ∧ ((-5 : Int) < 0) := by
  constructor
  · decide
  · decide

/-- C9 (amended): when every inventory quantity string has one of the data
model's forms (a sentinel or a nonempty decimal-digit string), every entry
produced by create_stocks has a nonnegative stock value. -/
theorem c9_amended_stock_nonneg (I : List Watch) (K : List String)
    (S : List StockEntry) (K' : List String)
    (hgood : ∀ w ∈ I, goodQuantity w.quantity)
    (h : create_stocks I K = some (S, K')) :
    ∀ e ∈ S, 0 ≤ e.stock := by
  obtain ⟨pr, hloop, heq⟩ := Option.map_eq_some'.mp h
  obtain ⟨S₀, R⟩ := pr
  rw [Prod.mk.injEq] at heq
  obtain ⟨hS, hK'⟩ := heq
  subst hS
  intro e he
  rcases List.mem_append.mp he with h1 | h2
  · exact stocksLoop_nonneg hgood hloop e h1
  · obtain ⟨i, hi, rfl⟩ := List.mem_map.mp h2
    exact le_refl 0

/-- Witness for the amended C9. -/
theorem c9_witness :
    (∀ w ∈ ([⟨"A", ">10", "1"⟩] : List Watch), goodQuantity w.quantity) ∧
    (∀ e ∈ ([⟨"A", 100⟩, ⟨"B", 0⟩] : List StockEntry), 0 ≤ e.stock) :=
  ⟨by decide,
    c9_amended_stock_nonneg [⟨"A", ">10", "1"⟩] ["A", "B"]
      [⟨"A", 100⟩, ⟨"B", 0⟩] ["B"] (by decide) (by decide)⟩

/-- C10: the offer-identifier fetch loop accumulates pages and terminates
exactly at the first page at which the reported total equals the cumulative
number of fetched items; an empty catalog reporting total 0 terminates after
the first page with the empty identifier list. -/
theorem c10_fetch_terminates_on_count_equality :
    get_offer_ids [(⟨[], 0, ""⟩ : Page)] = some [] ∧
    (∀ (pages : List Page) (res : List Product), fetchLoop pages [] = some res →
      ∃ k, k < pages.length ∧ res = cumItems pages (k + 1) ∧
        (∀ p, pages.get? k = some p → p.total = (cumItems pages (k + 1)).length) ∧
        (∀ j, j < k → ∀ p, pages.get? j = some p →
          p.total ≠ (cumItems pages (j + 1)).length)) ∧
    (∀ (pages : List Page) (k : Nat), k < pages.length →
      (∀ p, pages.get? k = some p → p.total = (cumItems pages (k + 1)).length) →
      (∀ j, j < k → ∀ p, pages.get? j = some p →
        p.total ≠ (cumItems pages (j + 1)).length) →
      fetchLoop pages [] = some (cumItems pages (k + 1))) := by
  refine ⟨rfl, ?_, ?_⟩
  · intro pages res h
    obtain ⟨k, hk, hres, hcond, hmin⟩ := (fetchLoop_some_iff pages [] res).mp h
    refine ⟨k, hk, by simpa using hres, ?_, ?_⟩
    · intro q hq
      simpa using hcond q hq
    · intro j hj q hq
      simpa using hmin j hj q hq
  · intro pages k hk hcond hmin
    exact (fetchLoop_some_iff pages [] (cumItems pages (k + 1))).mpr
      ⟨k, hk, by simp, fun q hq => by simpa using hcond q hq,
        fun j hj q hq => by simpa using hmin j hj q hq⟩

/-- Witness for C10: a one-page catalog whose total matches its item count
makes the loop stop after that page. -/
theorem c10_witness :
    fetchLoop [(⟨[⟨"x"⟩], 1, ""⟩ : Page)] []
      = some (cumItems [(⟨[⟨"x"⟩], 1, ""⟩ : Page)] 1) :=
  c10_fetch_terminates_on_count_equality.2.2 [⟨[⟨"x"⟩], 1, ""⟩] 0 (by decide)
    (fun p hp => by
      rw [List.get?_cons_zero] at hp
      injection hp with hp
      subst hp
      decide)
    (fun j hj q hq => absurd hj (Nat.not_lt_zero j))

end Seller
